import Mathlib

/-!
Verification of the MBA Copilot backend (`serverless/backend/index.py`).

The development shallowly embeds the pure core of the backend:

* the token chunker `chunk_by_tokens` (Python strings are modelled as Lean
  strings; the tokenizer is an abstract `Encoding`, the sliding token
  windows are modelled exactly as in the source loop);
* the chat retrieval selection (two-tier score fallback) and source list;
* the concurrent embedding gather (modelled with an explicit completion
  schedule acting on an index-addressed result table);
* the vector-store adapter and ingestion pipeline (`list_documents` with its
  top-100 bound, `delete_document`, batched upsert, `_process_file`);
* the PDF block sort (Python `round` half-to-even semantics on rationals);
* the PPTX extractor (character-list strings, Python `strip` semantics).
-/

set_option maxHeartbeats 1000000
set_option maxRecDepth 8000

namespace MBACopilot

/-! ## Python string primitives -/

/-- Python whitespace characters recognised by `str.strip()`. -/
def isPySpace (c : Char) : Bool :=
  c = ' ' || c = '\t' || c = '\n' || c = '\r' || c = '\x0b' || c = '\x0c'

/-- Python `str.strip()` on a character list. -/
def pyStripChars (l : List Char) : List Char :=
  ((l.dropWhile isPySpace).reverse.dropWhile isPySpace).reverse

/-- Python `str.rstrip()` on a character list. -/
def pyRStripChars (l : List Char) : List Char :=
  (l.reverse.dropWhile isPySpace).reverse

/-- Python `text.replace("\r\n", "\n")`: left-to-right, non-overlapping. -/
def replaceCRLF : List Char → List Char
  | [] => []
  | '\r' :: '\n' :: rest => '\n' :: replaceCRLF rest
  | c :: rest => c :: replaceCRLF rest

/-- Python `str.strip()` on a `String`. -/
def pyStrip (s : String) : String := ⟨pyStripChars s.toList⟩

/-- `text.replace("\r\n", "\n").strip()` — the normalisation performed at the
top of `chunk_by_tokens`. -/
def normalizeText (s : String) : String := ⟨pyStripChars (replaceCRLF s.toList)⟩

/-! ## Token chunker (`chunk_by_tokens`, index.py lines 134-175) -/

/-- An abstract tokenizer, standing for the tiktoken encoding obtained in
`chunk_by_tokens` (`tiktoken.encoding_for_model` / `cl100k_base`). -/
structure Encoding where
  encode : String → List Nat
  decode : List Nat → String

/-- The token windows `[start, end)` produced by the `while start < len(tokens)`
loop of `chunk_by_tokens`.  `fuel` bounds the iteration count; `n` is
`len(tokens)`.  Each step takes `end = min(start + chunk_tokens, n)`, emits
`(start, end)`, stops if `end >= n`, else restarts at
`max(0, end - overlap_tokens)` (natural subtraction already floors at 0). -/
def windowsAux (n chunkTokens overlapTokens : Nat) : Nat → Nat → List (Nat × Nat)
  | 0, _ => []
  | fuel + 1, start =>
    if start < n then
      if n ≤ start + chunkTokens then [(start, n)]
      else (start, start + chunkTokens) :: windowsAux n chunkTokens overlapTokens fuel (start + chunkTokens - overlapTokens)
    else []

/-- The full window list of the chunking loop (fuel `n + 1` always suffices,
since each iteration advances `start` by at least one when
`overlap_tokens < chunk_tokens`). -/
def windows (n chunkTokens overlapTokens : Nat) : List (Nat × Nat) :=
  windowsAux n chunkTokens overlapTokens (n + 1) 0

/-- Shallow embedding of `chunk_by_tokens`: normalise, return `[]` on empty
text, raise `ValueError` when `overlap_tokens >= chunk_tokens`, return the
whole text if it fits in one chunk, else decode each sliding window, strip it,
and drop empty decodes. -/
def chunk_by_tokens (enc : Encoding) (text : String)
    (chunkTokens overlapTokens : Nat) : Except String (List String) :=
  let t := normalizeText text
  if t = "" then Except.ok []
  else if chunkTokens ≤ overlapTokens then
    Except.error "overlap_tokens must be < chunk_tokens"
  else
    let tokens := enc.encode t
    if tokens.length ≤ chunkTokens then Except.ok [t]
    else
      Except.ok
        (((windows tokens.length chunkTokens overlapTokens).map
            (fun w => pyStrip (enc.decode ((tokens.drop w.1).take (w.2 - w.1))))).filter
          (fun c => c ≠ ""))

/-- A concrete tokenizer for witnesses and counterexamples: one token per
character. -/
def charEnc : Encoding where
  encode s := s.toList.map Char.toNat
  decode l := ⟨l.map Char.ofNat⟩

/-- Invariants of the chunking loop, proved by induction on the fuel:
starting from any `start < n` with enough fuel, the produced windows
(1) start exactly at `start`, (2) end exactly at `n`, (3) are nonempty,
inside `[start, n]`, and at most `chunkTokens` wide, (4) are chained so that
each window starts exactly `overlapTokens` before the previous one ends, and
(5) jointly cover `[start, n)`. -/
theorem windowsAux_props (n cs ov : Nat) (hov : ov < cs) :
    ∀ fuel start, start < n → n - start ≤ fuel →
      (windowsAux n cs ov fuel start).head?.map Prod.fst = some start ∧
      ((windowsAux n cs ov fuel start).getLast?).map Prod.snd = some n ∧
      (∀ w ∈ windowsAux n cs ov fuel start,
        start ≤ w.1 ∧ w.1 < w.2 ∧ w.2 ≤ n ∧ w.2 - w.1 ≤ cs) ∧
      List.Chain' (fun a b => b.1 + ov = a.2) (windowsAux n cs ov fuel start) ∧
      (∀ i, start ≤ i → i < n →
        ∃ w ∈ windowsAux n cs ov fuel start, w.1 ≤ i ∧ i < w.2) := by
  intro fuel
  induction fuel with
  | zero => intro start h1 h2; omega
  | succ f ih =>
    intro start h1 h2
    rw [windowsAux]
    rw [if_pos h1]
    by_cases hend : n ≤ start + cs
    · rw [if_pos hend]
      refine ⟨rfl, rfl, ?_, ?_, ?_⟩
      · intro w hw
        simp only [List.mem_singleton] at hw
        subst hw
        exact ⟨le_refl _, h1, le_refl _, by omega⟩
      · simp
      · intro i hi1 hi2
        exact ⟨(start, n), List.mem_singleton.mpr rfl, hi1, hi2⟩
    · rw [if_neg hend]
      push_neg at hend
      have hstart' : start + cs - ov < n := by omega
      have hfuel' : n - (start + cs - ov) ≤ f := by omega
      obtain ⟨ihHead, ihLast, ihMem, ihChain, ihCover⟩ := ih (start + cs - ov) hstart' hfuel'
      have hne : windowsAux n cs ov f (start + cs - ov) ≠ [] := by
        intro h
        rw [h] at ihHead
        simp at ihHead
      refine ⟨rfl, ?_, ?_, ?_, ?_⟩
      · cases hL : windowsAux n cs ov f (start + cs - ov) with
        | nil => exact absurd hL hne
        | cons b L' =>
          rw [hL] at ihLast
          rw [List.getLast?_cons_cons]
          exact ihLast
      · intro w hw
        rcases List.mem_cons.mp hw with hw | hw
        · subst hw
          exact ⟨le_refl _, by omega, by omega, by omega⟩
        · obtain ⟨hm1, hm2, hm3, hm4⟩ := ihMem w hw
          exact ⟨by omega, hm2, hm3, hm4⟩
      · rw [List.chain'_cons']
        refine ⟨?_, ihChain⟩
        intro y hy
        cases hH : (windowsAux n cs ov f (start + cs - ov)).head? with
        | none => rw [hH] at hy; simp at hy
        | some w =>
          rw [hH] at ihHead hy
          have hw1 : w.1 = start + cs - ov := by simpa using ihHead
          have hyw : y = w := by
            have h := hy
            simp only [Option.mem_def] at h
            exact (Option.some_inj.mp h).symm
          subst hyw
          omega
      · intro i hi1 hi2
        by_cases hcase : i < start + cs
        · exact ⟨(start, start + cs), List.mem_cons_self _ _, hi1, hcase⟩
        · push_neg at hcase
          obtain ⟨w, hw, hw1, hw2⟩ := ihCover i (by omega) hi2
          exact ⟨w, List.mem_cons_of_mem _ hw, hw1, hw2⟩

/-- C2: for every text whose token length `N` exceeds `chunk_size` and every
valid configuration `chunk_size > overlap >= 0`, `chunk_by_tokens` decodes
exactly the sliding token windows (dropping whitespace-only decodes), and
these windows each span at most `chunk_size` tokens, consecutive windows
overlap by exactly `overlap` tokens (here proved for all consecutive pairs,
including the final one), and their union covers the whole token range. -/
theorem chunk_window_properties (enc : Encoding) (text : String) (cs ov : Nat)
    (hov : ov < cs) (hne : normalizeText text ≠ "")
    (hlong : cs < (enc.encode (normalizeText text)).length) :
    chunk_by_tokens enc text cs ov =
      Except.ok
        (((windows (enc.encode (normalizeText text)).length cs ov).map
            (fun w => pyStrip (enc.decode
              (((enc.encode (normalizeText text)).drop w.1).take (w.2 - w.1))))).filter
          (fun c => c ≠ "")) ∧
    (∀ w ∈ windows (enc.encode (normalizeText text)).length cs ov,
      w.2 - w.1 ≤ cs) ∧
    List.Chain' (fun a b => b.1 + ov = a.2)
      (windows (enc.encode (normalizeText text)).length cs ov) ∧
    (∀ i, i < (enc.encode (normalizeText text)).length →
      ∃ w ∈ windows (enc.encode (normalizeText text)).length cs ov,
        w.1 ≤ i ∧ i < w.2) := by
  have hn : 0 < (enc.encode (normalizeText text)).length := by omega
  obtain ⟨_, _, hmem, hchain, hcover⟩ :=
    windowsAux_props (enc.encode (normalizeText text)).length cs ov hov
      ((enc.encode (normalizeText text)).length + 1) 0 hn (by omega)
  refine ⟨?_, ?_, hchain, ?_⟩
  · rw [chunk_by_tokens]
    simp only [if_neg hne, if_neg (by omega : ¬ cs ≤ ov), if_neg (by omega : ¬ (enc.encode (normalizeText text)).length ≤ cs)]
  · intro w hw
    exact (hmem w hw).2.2.2
  · intro i hi
    exact hcover i (Nat.zero_le i) hi

/-- Witness for C2 at a concrete input: `charEnc`, text `"abcdefgh"`
(8 tokens), `chunk_size = 3`, `overlap = 1`. -/
theorem chunk_window_properties_witness :
    (1 < 3 ∧ normalizeText "abcdefgh" ≠ "" ∧
      3 < (charEnc.encode (normalizeText "abcdefgh")).length) ∧
    (chunk_by_tokens charEnc "abcdefgh" 3 1 =
      Except.ok
        (((windows (charEnc.encode (normalizeText "abcdefgh")).length 3 1).map
            (fun w => pyStrip (charEnc.decode
              (((charEnc.encode (normalizeText "abcdefgh")).drop w.1).take (w.2 - w.1))))).filter
          (fun c => c ≠ "")) ∧
    (∀ w ∈ windows (charEnc.encode (normalizeText "abcdefgh")).length 3 1,
      w.2 - w.1 ≤ 3) ∧
    List.Chain' (fun a b => b.1 + 1 = a.2)
      (windows (charEnc.encode (normalizeText "abcdefgh")).length 3 1) ∧
    (∀ i, i < (charEnc.encode (normalizeText "abcdefgh")).length →
      ∃ w ∈ windows (charEnc.encode (normalizeText "abcdefgh")).length 3 1,
        w.1 ≤ i ∧ i < w.2)) :=
  ⟨⟨by decide, by decide, by decide⟩,
    chunk_window_properties charEnc "abcdefgh" 3 1 (by decide) (by decide) (by decide)⟩

/-- C3 (amended): for valid `overlap < chunk_size` and any text that is
non-empty after normalisation (CRLF conversion and stripping, so explicitly
including inputs with surrounding whitespace or CRLFs), if the normalised
text's token length is at most `chunk_size` then `chunk_by_tokens` returns
exactly the one-element list containing the normalised text; in particular
an already-normalised text is returned unchanged.  (The original claim fails
for texts changed by the normalisation step and for empty input, see the
counterexample.) -/
theorem chunk_small_identity (enc : Encoding) (text : String) (cs ov : Nat)
    (hov : ov < cs) (hne : normalizeText text ≠ "")
    (hfit : (enc.encode (normalizeText text)).length ≤ cs) :
    chunk_by_tokens enc text cs ov = Except.ok [normalizeText text] ∧
    (normalizeText text = text →
      chunk_by_tokens enc text cs ov = Except.ok [text]) := by
  have hmain : chunk_by_tokens enc text cs ov = Except.ok [normalizeText text] := by
    rw [chunk_by_tokens]
    rw [if_neg hne, if_neg (by omega : ¬ cs ≤ ov), if_pos hfit]
  exact ⟨hmain, fun hfix => by rw [hmain, hfix]⟩

/-- Witness for C3 (amended): the general arm at the whitespace-padded input
`" a "` (returned as its normalised form `"a"`), and the fixed-point arm at
the already-normalised input `"ab"` (returned unchanged), both with
`chunk_size = 5`, `overlap = 1`. -/
theorem chunk_small_identity_witness :
    (1 < 5 ∧ normalizeText " a " ≠ "" ∧
      (charEnc.encode (normalizeText " a ")).length ≤ 5 ∧
      normalizeText "ab" = "ab") ∧
    chunk_by_tokens charEnc " a " 5 1 = Except.ok [normalizeText " a "] ∧
    chunk_by_tokens charEnc "ab" 5 1 = Except.ok ["ab"] :=
  ⟨⟨by decide, by decide, by decide, by decide⟩,
    (chunk_small_identity charEnc " a " 5 1 (by decide) (by decide) (by decide)).1,
    (chunk_small_identity charEnc "ab" 5 1 (by decide) (by decide) (by decide)).2
      (by decide)⟩

/-- C3 counterexample: the text `" a "` has token length `3 <= 5`, yet
`chunk_by_tokens` returns the stripped text `["a"]`, not `[" a "]` — the
text is not returned unchanged. -/
theorem chunk_small_identity_cex :
    (charEnc.encode " a ").length ≤ 5 ∧
    chunk_by_tokens charEnc " a " 5 1 = Except.ok ["a"] ∧
    ("a" : String) ≠ " a " := by
  refine ⟨by decide, rfl, by decide⟩

/-- C4 (amended): whenever the normalised text is non-empty,
`overlap_tokens >= chunk_tokens` raises the `ValueError`.  (For empty or
whitespace-only input the function returns `[]` before the configuration
check, see the counterexample.) -/
theorem chunk_overlap_error (enc : Encoding) (text : String) (cs ov : Nat)
    (hne : normalizeText text ≠ "") (hov : cs ≤ ov) :
    chunk_by_tokens enc text cs ov =
      Except.error "overlap_tokens must be < chunk_tokens" := by
  rw [chunk_by_tokens]
  rw [if_neg hne, if_pos hov]

/-- Witness for C4 (amended) at the concrete input `"ab"`, `chunk_size = 3`,
`overlap = 5`. -/
theorem chunk_overlap_error_witness :
    (normalizeText "ab" ≠ "" ∧ 3 ≤ 5) ∧
    chunk_by_tokens charEnc "ab" 3 5 =
      Except.error "overlap_tokens must be < chunk_tokens" :=
  ⟨⟨by decide, by decide⟩, chunk_overlap_error charEnc "ab" 3 5 (by decide) (by decide)⟩

/-- C4 counterexample: on empty input with `overlap = 5 >= chunk_size = 3`
the function silently returns `[]` instead of raising the configuration
error — the emptiness early-return precedes the precondition check. -/
theorem chunk_overlap_error_cex :
    chunk_by_tokens charEnc "" 3 5 = Except.ok [] ∧
    ∀ e, chunk_by_tokens charEnc "" 3 5 ≠ Except.error e := by
  constructor
  · rfl
  · intro e h
    rw [show chunk_by_tokens charEnc "" 3 5 = Except.ok [] from rfl] at h
    exact Except.noConfusion h

/-! ## Chat retrieval (`chat`, index.py lines 668-723) -/

/-- Stored per-chunk metadata record (built in `_process_file`). -/
structure ChunkMeta where
  text : String
  document_id : String
  filename : String
  chunk_index : Nat
  total_chunks : Nat
  uploaded_at : String
  is_first_chunk : Bool
deriving DecidableEq

/-- A ranked candidate as returned by `query_similar` (id, score, and the
metadata-derived fields). -/
structure RetrievalResult where
  id : String
  score : ℚ
  text : String
  filename : String
  document_id : String
  metadata : ChunkMeta
deriving DecidableEq

/-- The context-selection logic of `chat` (lines 683-693): filter by
`min_score`; if any candidate survives take the first `CONTEXT_MAX_CHUNKS`,
else if candidates exist at all take the first
`max(3, CONTEXT_MAX_CHUNKS // 2)` raw candidates, else none.  The code fixes
`contextK = config.CONTEXT_MAX_CHUNKS = 8`; it is kept as a parameter. -/
def selectContext (similar : List RetrievalResult) (minScore : ℚ)
    (contextK : Nat) : List RetrievalResult :=
  let relevant := similar.filter (fun c => minScore ≤ c.score)
  if relevant ≠ [] then relevant.take contextK
  else if similar ≠ [] then similar.take (max 3 (contextK / 2))
  else []

/-- The context block rendering of `chat` (lines 696-701). -/
def buildContext (chunks : List RetrievalResult) : String :=
  if chunks ≠ [] then
    String.intercalate "\n\n---\n\n"
      (chunks.map (fun c => "[Source: " ++ c.filename ++ "]\n" ++ c.text))
  else ""

/-- One entry of the `sources` list of the chat response (lines 712-721). -/
structure SourceEntry where
  text : String
  score : ℚ
  filename : String
  document_id : String
  metadata : ChunkMeta
deriving DecidableEq

/-- The chat response model. -/
structure ChatResponse where
  answer : String
  sources : List SourceEntry
deriving DecidableEq

/-- Shallow embedding of the `chat` endpoint after retrieval: `similar` is
the ranked candidate list returned by the store, `answerFn` abstracts
`generate_answer` (question and context block to answer). -/
def chat (answerFn : String → String → String) (similar : List RetrievalResult)
    (message : String) (minScore : ℚ) (contextK : Nat) : ChatResponse :=
  let context_chunks := selectContext similar minScore contextK
  let context := buildContext context_chunks
  { answer := answerFn message context
    sources := context_chunks.map (fun c =>
      { text := c.text, score := c.score, filename := c.filename
        document_id := c.document_id, metadata := c.metadata }) }

/-- C1: the two-tier fallback, exactly as claimed: if some candidate clears
`min_score`, the context is the first `context_k` clearing candidates in rank
order; if candidates exist but none clears, it is the first
`max(3, context_k / 2)` raw candidates; if there are no candidates the
context is empty and generation still proceeds (the response is produced
from the empty context block). -/
theorem chat_two_tier_fallback (answerFn : String → String → String)
    (similar : List RetrievalResult) (message : String) (minScore : ℚ)
    (contextK : Nat) :
    (similar.filter (fun c => minScore ≤ c.score) ≠ [] →
      selectContext similar minScore contextK =
        (similar.filter (fun c => minScore ≤ c.score)).take contextK) ∧
    (similar.filter (fun c => minScore ≤ c.score) = [] → similar ≠ [] →
      selectContext similar minScore contextK =
        similar.take (max 3 (contextK / 2))) ∧
    (similar = [] →
      selectContext similar minScore contextK = [] ∧
      chat answerFn similar message minScore contextK =
        ⟨answerFn message "", []⟩) := by
  refine ⟨?_, ?_, ?_⟩
  · intro h
    rw [selectContext]
    simp only [if_pos h]
  · intro h hne
    rw [selectContext]
    simp only [h]
    simp [hne]
  · intro h
    subst h
    constructor
    · rfl
    · rfl

/-- Witness for C1: all three tiers exercised on concrete candidate lists
(scores 0.9/0.6/0.2 with threshold 0.3; scores 0.2/0.1 with threshold 0.3;
the empty candidate list). -/
theorem chat_two_tier_fallback_witness :
    (selectContext
        [⟨"a", 9, "t1", "f", "d", ⟨"t1", "d", "f", 0, 3, "u", true⟩⟩,
         ⟨"b", 6, "t2", "f", "d", ⟨"t2", "d", "f", 1, 3, "u", false⟩⟩,
         ⟨"c", 2, "t3", "f", "d", ⟨"t3", "d", "f", 2, 3, "u", false⟩⟩]
        (3) 8 =
      ([⟨"a", 9, "t1", "f", "d", ⟨"t1", "d", "f", 0, 3, "u", true⟩⟩,
        ⟨"b", 6, "t2", "f", "d", ⟨"t2", "d", "f", 1, 3, "u", false⟩⟩,
        ⟨"c", 2, "t3", "f", "d", ⟨"t3", "d", "f", 2, 3, "u", false⟩⟩].filter
          (fun c => (3 : ℚ) ≤ c.score)).take 8) ∧
    (selectContext
        [⟨"c", 2, "t3", "f", "d", ⟨"t3", "d", "f", 0, 2, "u", true⟩⟩,
         ⟨"e", 1, "t4", "f", "d", ⟨"t4", "d", "f", 1, 2, "u", false⟩⟩]
        (3) 8 =
      [⟨"c", 2, "t3", "f", "d", ⟨"t3", "d", "f", 0, 2, "u", true⟩⟩,
       ⟨"e", 1, "t4", "f", "d", ⟨"t4", "d", "f", 1, 2, "u", false⟩⟩].take
        (max 3 (8 / 2))) ∧
    (selectContext [] (3) 8 = [] ∧
      chat (fun _ _ => "no docs") [] "q" (3) 8 = ⟨"no docs", []⟩) :=
  ⟨(chat_two_tier_fallback (fun _ _ => "no docs") _ "q" (3) 8).1 (by decide),
   (chat_two_tier_fallback (fun _ _ => "no docs") _ "q" (3) 8).2.1
      (by decide) (by decide),
   (chat_two_tier_fallback (fun _ _ => "no docs") [] "q" (3) 8).2.2 rfl⟩

/-- C10: the `sources` list of the chat response is exactly the selected
context chunks, in retrieval rank order, each entry carrying that chunk's
text, score, filename, document id and stored metadata; consequently no
chunk outside the context set appears as a source. -/
theorem chat_sources_cover (answerFn : String → String → String)
    (similar : List RetrievalResult) (message : String) (minScore : ℚ)
    (contextK : Nat) :
    (chat answerFn similar message minScore contextK).sources =
      (selectContext similar minScore contextK).map (fun c =>
        { text := c.text, score := c.score, filename := c.filename
          document_id := c.document_id, metadata := c.metadata }) ∧
    (∀ s ∈ (chat answerFn similar message minScore contextK).sources,
      ∃ c ∈ selectContext similar minScore contextK,
        s.text = c.text ∧ s.score = c.score ∧ s.filename = c.filename ∧
        s.document_id = c.document_id ∧ s.metadata = c.metadata) := by
  refine ⟨rfl, ?_⟩
  intro s hs
  rw [show (chat answerFn similar message minScore contextK).sources =
      (selectContext similar minScore contextK).map (fun c =>
        ({ text := c.text, score := c.score, filename := c.filename
           document_id := c.document_id, metadata := c.metadata } : SourceEntry))
    from rfl] at hs
  obtain ⟨c, hc, hsc⟩ := List.mem_map.mp hs
  exact ⟨c, hc, by rw [← hsc]; exact ⟨rfl, rfl, rfl, rfl, rfl⟩⟩

/-- Witness for C10 on a concrete one-candidate chat call. -/
theorem chat_sources_cover_witness :
    (chat (fun _ _ => "ans")
        [⟨"a", 9, "t1", "f1", "d1", ⟨"t1", "d1", "f1", 0, 1, "u", true⟩⟩]
        "q" (3) 8).sources =
      (selectContext
        [⟨"a", 9, "t1", "f1", "d1", ⟨"t1", "d1", "f1", 0, 1, "u", true⟩⟩]
        (3) 8).map (fun c =>
          { text := c.text, score := c.score, filename := c.filename
            document_id := c.document_id, metadata := c.metadata }) ∧
    (∃ c ∈ selectContext
        [⟨"a", 9, "t1", "f1", "d1", ⟨"t1", "d1", "f1", 0, 1, "u", true⟩⟩]
        (3) 8,
      ("t1" : String) = c.text ∧ (9 : ℚ) = c.score ∧
      ("f1" : String) = c.filename ∧ ("d1" : String) = c.document_id ∧
      (⟨"t1", "d1", "f1", 0, 1, "u", true⟩ : ChunkMeta) = c.metadata) :=
  ⟨(chat_sources_cover (fun _ _ => "ans") _ "q" (3) 8).1,
   (chat_sources_cover (fun _ _ => "ans")
      [⟨"a", 9, "t1", "f1", "d1", ⟨"t1", "d1", "f1", 0, 1, "u", true⟩⟩]
      "q" (3) 8).2
     ⟨"t1", 9, "f1", "d1", ⟨"t1", "d1", "f1", 0, 1, "u", true⟩⟩ (by decide)⟩

/-! ## Embedding orchestrator (`generate_embeddings_batch`, lines 441-474)

`asyncio.gather` launches one request per text and writes each result into
the slot of its own input index; results are read off by index, not by
completion time.  The model makes the completion order explicit: `schedule`
is the order in which the per-text requests finish, and each completion
writes into an index-addressed table. -/

/-- Run the completions in `schedule` order: completion of task `i` stores
the embedding of `texts[i]` in slot `i` of the result table. -/
def fillResults (f : String → List ℚ) (texts : List String) :
    List Nat → (Nat → Option (List ℚ)) → Nat → Option (List ℚ)
  | [], acc => acc
  | i :: rest, acc =>
    fillResults f texts rest
      (fun j => if j = i then (texts.get? i).map f else acc j)

/-- Shallow embedding of `generate_embeddings_batch`: all per-text requests
run (in completion order `schedule`), and the result list is read back by
input index 0, 1, …, `texts.length - 1`. -/
def generate_embeddings_batch (f : String → List ℚ) (texts : List String)
    (schedule : List Nat) : List (List ℚ) :=
  (List.range texts.length).map (fun i =>
    (fillResults f texts schedule (fun _ => none) i).getD [])

/-- Evaluating the result table: slot `j` holds the embedding of `texts[j]`
exactly when task `j` appears in the completion schedule. -/
theorem fillResults_eval (f : String → List ℚ) (texts : List String) :
    ∀ (schedule : List Nat) (acc : Nat → Option (List ℚ)) (j : Nat),
      fillResults f texts schedule acc j =
        if j ∈ schedule then (texts.get? j).map f else acc j := by
  intro schedule
  induction schedule with
  | nil => intro acc j; simp [fillResults]
  | cons i rest ih =>
    intro acc j
    rw [fillResults, ih]
    by_cases hr : j ∈ rest
    · simp [hr, List.mem_cons]
    · by_cases hij : j = i
      · subst hij
        simp [hr, List.mem_cons]
      · simp [hr, hij, List.mem_cons]

/-- C5: whenever every input index completes (in any order), the result list
has the same length as the input and `vectors[i]` is the embedding of
`texts[i]` — results are ordered by input index, never by completion
order. -/
theorem generate_embeddings_batch_order (f : String → List ℚ)
    (texts : List String) (schedule : List Nat)
    (hcover : ∀ i, i < texts.length → i ∈ schedule) :
    (generate_embeddings_batch f texts schedule).length = texts.length ∧
    generate_embeddings_batch f texts schedule = texts.map f := by
  have hmain : generate_embeddings_batch f texts schedule = texts.map f := by
    apply List.ext_getElem
    · simp [generate_embeddings_batch]
    · intro n h1 h2
      simp only [generate_embeddings_batch, List.getElem_map, List.getElem_range]
      have hn : n < texts.length := by
        simpa [generate_embeddings_batch] using h1
      rw [fillResults_eval]
      rw [if_pos (hcover n hn)]
      rw [List.get?_eq_getElem?, List.getElem?_eq_getElem hn]
      rfl
  exact ⟨by rw [hmain]; simp, hmain⟩

/-- Witness for C5: two texts completing in reversed order still produce
index-ordered results. -/
theorem generate_embeddings_batch_order_witness :
    (∀ i, i < (["a", "bb"] : List String).length → i ∈ [1, 0]) ∧
    (generate_embeddings_batch (fun s => [(s.length : ℚ)]) ["a", "bb"] [1, 0]).length = 2 ∧
    generate_embeddings_batch (fun s => [(s.length : ℚ)]) ["a", "bb"] [1, 0] =
      (["a", "bb"] : List String).map (fun s => [(s.length : ℚ)]) :=
  ⟨by decide,
    (generate_embeddings_batch_order (fun s => [(s.length : ℚ)]) ["a", "bb"] [1, 0]
      (by decide)).1,
    (generate_embeddings_batch_order (fun s => [(s.length : ℚ)]) ["a", "bb"] [1, 0]
      (by decide)).2⟩

/-! ## Vector store adapter and ingestion (`index.py` lines 482-561, 744-799)

The Pinecone index is modelled as a list of records; the list order stands
for the (external) ranking in which the index returns matches, so
`list_documents`' `top_k = 100` bound takes the first hundred first-chunk
records of that ranking. -/

/-- A stored vector with its metadata (what `store_chunks` upserts). -/
structure VectorRecord where
  id : String
  embedding : List ℚ
  metadata : ChunkMeta
deriving DecidableEq

/-- A document summary as produced by `list_documents`. -/
structure DocumentSummary where
  id : String
  filename : String
  chunks : Nat
  uploaded_at : String
deriving DecidableEq

/-- `list_documents`: query filtered to `is_first_chunk = true`, bounded by
`top_k = 100`, each match summarised from its metadata. -/
def list_documents (store : List VectorRecord) : List DocumentSummary :=
  ((store.filter (fun r => r.metadata.is_first_chunk)).take 100).map
    (fun r => ⟨r.metadata.document_id, r.metadata.filename,
      r.metadata.total_chunks, r.metadata.uploaded_at⟩)

/-- `delete_document`: remove every chunk whose metadata matches the
document id. -/
def delete_document (store : List VectorRecord) (docId : String) :
    List VectorRecord :=
  store.filter (fun r => r.metadata.document_id ≠ docId)

/-- Upsert of one record: idempotent by chunk identity key (`id`). -/
def upsertOne (store : List VectorRecord) (r : VectorRecord) :
    List VectorRecord :=
  (store.filter (fun s => s.id ≠ r.id)) ++ [r]

/-- `store_chunks`: upsert all records (the source batches them 100 at a
time; batching does not change the resulting store contents). -/
def store_chunks (store : List VectorRecord) (recs : List VectorRecord) :
    List VectorRecord :=
  recs.foldl upsertOne store

/-- The per-chunk record construction of `_process_file` (lines 774-790):
`zip(structured_chunks, embeddings)` (truncating, `strict=False`) enumerated,
id `"{document_id}_chunk_{i}"`, metadata carrying text, document id,
filename, chunk index, total chunk count, upload timestamp and the
`is_first_chunk = (i == 0)` marker. -/
def build_chunk_records (texts : List String) (embs : List (List ℚ))
    (docId fn ts : String) : List VectorRecord :=
  (texts.zip embs).enum.map (fun p =>
    { id := docId ++ "_chunk_" ++ toString p.1
      embedding := p.2.2
      metadata :=
        { text := p.2.1
          document_id := docId
          filename := fn
          chunk_index := p.1
          total_chunks := texts.length
          uploaded_at := ts
          is_first_chunk := p.1 == 0 } })

/-- Shallow embedding of `_process_file` after extraction and embedding:
reject empty content, enumerate existing documents (bounded), delete every
listed document sharing the filename, then upsert the new chunk records. -/
def process_file (store : List VectorRecord) (texts : List String)
    (embs : List (List ℚ)) (docId fn ts : String) :
    Except String (List VectorRecord) :=
  if texts = [] then Except.error "No content to process"
  else
    Except.ok (store_chunks
      ((list_documents store).foldl
        (fun s d => if d.filename = fn then delete_document s d.id else s) store)
      (build_chunk_records texts embs docId fn ts))

/-- A record surviving the dedup-deletion loop was already stored and belongs
to no listed document carrying the colliding filename. -/
theorem deleteFold_mem (fn : String) :
    ∀ (docs : List DocumentSummary) (store : List VectorRecord)
      (r : VectorRecord),
      r ∈ docs.foldl
        (fun s d => if d.filename = fn then delete_document s d.id else s) store →
      r ∈ store ∧ ∀ d ∈ docs, d.filename = fn → r.metadata.document_id ≠ d.id := by
  intro docs
  induction docs with
  | nil => intro store r hr; exact ⟨hr, by simp⟩
  | cons d₀ rest ih =>
    intro store r hr
    rw [List.foldl_cons] at hr
    obtain ⟨hr1, hr2⟩ := ih _ r hr
    have hstep : r ∈ store ∧ (d₀.filename = fn → r.metadata.document_id ≠ d₀.id) := by
      by_cases hd : d₀.filename = fn
      · rw [if_pos hd] at hr1
        rw [delete_document, List.mem_filter] at hr1
        exact ⟨hr1.1, fun _ => by simpa using hr1.2⟩
      · rw [if_neg hd] at hr1
        exact ⟨hr1, fun h => absurd h hd⟩
    refine ⟨hstep.1, ?_⟩
    intro d hd hfn
    rcases List.mem_cons.mp hd with hd | hd
    · subst hd; exact hstep.2 hfn
    · exact hr2 d hd hfn

/-- Membership after upserting a batch: the record was already stored or is
one of the upserted records. -/
theorem store_chunks_mem :
    ∀ (recs store : List VectorRecord) (r : VectorRecord),
      r ∈ store_chunks store recs → r ∈ store ∨ r ∈ recs := by
  intro recs
  induction recs with
  | nil => intro store r hr; exact Or.inl hr
  | cons r₀ rest ih =>
    intro store r hr
    rw [store_chunks, List.foldl_cons] at hr
    rcases ih _ r hr with hr | hr
    · rw [upsertOne, List.mem_append] at hr
      rcases hr with hr | hr
      · exact Or.inl (List.mem_filter.mp hr).1
      · exact Or.inr (List.mem_cons.mpr (Or.inl (List.mem_singleton.mp hr)))
    · exact Or.inr (List.mem_cons_of_mem _ hr)

/-- The last record of an upserted batch is present afterwards (its id is
never filtered out by a later upsert of the same batch). -/
theorem store_chunks_mem_last (store : List VectorRecord)
    (recs : List VectorRecord) (h : recs ≠ []) :
    recs.getLast h ∈ store_chunks store recs := by
  conv_lhs => rw [← List.dropLast_append_getLast h]
  rw [store_chunks]
  conv in recs => rw [← List.dropLast_append_getLast h]
  rw [List.foldl_append]
  simp only [List.foldl_cons, List.foldl_nil]
  rw [upsertOne]
  exact List.mem_append_right _ (List.mem_singleton.mpr rfl)

/-- Every record built for a document carries that document's id and
filename. -/
theorem build_chunk_records_fields (texts : List String)
    (embs : List (List ℚ)) (docId fn ts : String) :
    ∀ r ∈ build_chunk_records texts embs docId fn ts,
      r.metadata.document_id = docId ∧ r.metadata.filename = fn := by
  intro r hr
  rw [build_chunk_records] at hr
  obtain ⟨p, _, hp⟩ := List.mem_map.mp hr
  rw [← hp]
  exact ⟨rfl, rfl⟩

/-- With content and embeddings present, the built record list is
nonempty. -/
theorem build_chunk_records_ne_nil (texts : List String)
    (embs : List (List ℚ)) (docId fn ts : String)
    (htexts : texts ≠ []) (hembs : embs ≠ []) :
    build_chunk_records texts embs docId fn ts ≠ [] := by
  have hlen : (build_chunk_records texts embs docId fn ts).length =
      min texts.length embs.length := by
    rw [build_chunk_records]
    simp [List.length_zip]
  intro h
  rw [h] at hlen
  have h1 : 0 < texts.length := List.length_pos.mpr htexts
  have h2 : 0 < embs.length := List.length_pos.mpr hembs
  simp only [List.length_nil] at hlen
  omega

/-- C6 (amended): ingesting a document whose filename collides with stored
records removes those records and leaves the new document as the only one
with that filename, provided every colliding record belongs to a document
found by the bounded (top-100) `list_documents` enumeration — in particular
whenever at most 100 documents are stored.  (Beyond that bound the dedup
scan can miss the prior document, see the counterexample.) -/
theorem ingest_dedup (store : List VectorRecord) (texts : List String)
    (embs : List (List ℚ)) (docId fn ts : String)
    (htexts : texts ≠ []) (hembs : embs ≠ [])
    (hdisc : ∀ r ∈ store, r.metadata.filename = fn →
      ∃ d ∈ list_documents store, d.filename = fn ∧
        d.id = r.metadata.document_id) :
    ∃ result, process_file store texts embs docId fn ts = Except.ok result ∧
      (∃ r ∈ result, r.metadata.filename = fn ∧
        r.metadata.document_id = docId) ∧
      (∀ r ∈ result, r.metadata.filename = fn →
        r.metadata.document_id = docId) ∧
      (∀ oldId, oldId ≠ docId →
        (∀ r ∈ store, r.metadata.document_id = oldId →
          r.metadata.filename = fn) →
        ∀ r ∈ result, r.metadata.document_id ≠ oldId) := by
  have hnew := build_chunk_records_ne_nil texts embs docId fn ts htexts hembs
  refine ⟨_, by rw [process_file, if_neg htexts], ?_, ?_, ?_⟩
  · refine ⟨(build_chunk_records texts embs docId fn ts).getLast hnew,
      store_chunks_mem_last _ _ hnew, ?_⟩
    have := build_chunk_records_fields texts embs docId fn ts
      ((build_chunk_records texts embs docId fn ts).getLast hnew)
      (List.getLast_mem hnew)
    exact ⟨this.2, this.1⟩
  · intro r hr hfn
    rcases store_chunks_mem _ _ r hr with hr | hr
    · obtain ⟨hstore, hnot⟩ := deleteFold_mem fn _ store r hr
      obtain ⟨d, hd, hdfn, hdid⟩ := hdisc r hstore hfn
      exact absurd hdid.symm (hnot d hd hdfn)
    · exact (build_chunk_records_fields texts embs docId fn ts r hr).1
  · intro oldId hold holdfn r hr hid
    rcases store_chunks_mem _ _ r hr with hr | hr
    · obtain ⟨hstore, hnot⟩ := deleteFold_mem fn _ store r hr
      have hfn := holdfn r hstore hid
      obtain ⟨d, hd, hdfn, hdid⟩ := hdisc r hstore hfn
      exact absurd hdid.symm (hnot d hd hdfn)
    · have := (build_chunk_records_fields texts embs docId fn ts r hr).1
      rw [hid] at this
      exact hold this

/-- A stored first chunk of an old document named `dup.pdf`. -/
def oldRec : VectorRecord :=
  ⟨"o0", [], ⟨"t", "dOld", "dup.pdf", 0, 1, "u", true⟩⟩

/-- A stored first chunk of an unrelated document. -/
def fillerRec : VectorRecord :=
  ⟨"x0", [], ⟨"t", "dX", "x.pdf", 0, 1, "u", true⟩⟩

/-- A store holding 101 documents, the colliding one ranked last (beyond the
`top_k = 100` enumeration bound of `list_documents`). -/
def store101 : List VectorRecord := List.replicate 100 fillerRec ++ [oldRec]

/-- Witness for C6 (amended) on a one-document store: re-ingesting
`dup.pdf` removes the old document's chunks. -/
theorem ingest_dedup_witness :
    ((["x"] : List String) ≠ [] ∧ ([[1]] : List (List ℚ)) ≠ [] ∧
      (∀ r ∈ [oldRec], r.metadata.filename = "dup.pdf" →
        ∃ d ∈ list_documents [oldRec], d.filename = "dup.pdf" ∧
          d.id = r.metadata.document_id)) ∧
    (∃ result,
      process_file [oldRec] ["x"] [[1]] "dNew" "dup.pdf" "u2" =
        Except.ok result ∧
      (∃ r ∈ result, r.metadata.filename = "dup.pdf" ∧
        r.metadata.document_id = "dNew") ∧
      (∀ r ∈ result, r.metadata.filename = "dup.pdf" →
        r.metadata.document_id = "dNew") ∧
      (∀ oldId, oldId ≠ "dNew" →
        (∀ r ∈ [oldRec], r.metadata.document_id = oldId →
          r.metadata.filename = "dup.pdf") →
        ∀ r ∈ result, r.metadata.document_id ≠ oldId)) :=
  ⟨⟨by decide, by decide, by decide⟩,
    ingest_dedup [oldRec] ["x"] [[1]] "dNew" "dup.pdf" "u2"
      (by decide) (by decide) (by decide)⟩

/-- C6 counterexample: with 101 stored documents the bounded (top-100)
enumeration misses the prior `dup.pdf` document, so re-ingesting `dup.pdf`
leaves the old document's chunks in the store alongside the new ones — the
prior document is not removed and two documents share the filename. -/
theorem ingest_dedup_cex :
    oldRec ∈ (process_file store101 ["x"] [[1]] "dNew" "dup.pdf" "u2").toOption.getD [] ∧
    oldRec.metadata.filename = "dup.pdf" ∧
    oldRec.metadata.document_id = "dOld" ∧
    ("dOld" : String) ≠ "dNew" := by
  refine ⟨by decide, by decide, by decide, by decide⟩

/-- A list whose predicate holds exactly at index 0 has `countP = 1`. -/
theorem countP_eq_one_of_first {α : Type _} (p : α → Bool) (l : List α)
    (hne : l ≠ [])
    (h : ∀ i (hi : i < l.length), (p (l.get ⟨i, hi⟩) = true ↔ i = 0)) :
    l.countP p = 1 := by
  cases l with
  | nil => exact absurd rfl hne
  | cons a t =>
    have hpa : p a = true := (h 0 (by simp)).mpr rfl
    have ht : t.countP p = 0 := by
      rw [List.countP_eq_zero]
      intro x hx hpx
      obtain ⟨j, hj, hxj⟩ := List.mem_iff_getElem.mp hx
      have hiff := h (j + 1) (by simpa using Nat.succ_lt_succ hj)
      rw [List.get_eq_getElem, List.getElem_cons_succ] at hiff
      rw [hxj] at hiff
      exact Nat.succ_ne_zero j (hiff.mp hpx)
    rw [List.countP_cons_of_pos _ _ hpa, ht]

/-- C7: every record built for a successful ingestion carries the full
metadata (`document_id`, `filename`, `chunk_index`, `total_chunks`,
`uploaded_at`, `is_first_chunk`), one record per chunk, with
`is_first_chunk` true exactly for chunk index 0, and hence exactly one
record per document carries the `is_first_chunk` marker. -/
theorem chunk_metadata_invariants (texts : List String) (embs : List (List ℚ))
    (docId fn ts : String) (hlen : embs.length = texts.length)
    (hne : texts ≠ []) :
    (build_chunk_records texts embs docId fn ts).length = texts.length ∧
    (∀ i r, (build_chunk_records texts embs docId fn ts)[i]? = some r →
      r.metadata.document_id = docId ∧ r.metadata.filename = fn ∧
      r.metadata.chunk_index = i ∧ r.metadata.total_chunks = texts.length ∧
      r.metadata.uploaded_at = ts ∧
      (r.metadata.is_first_chunk = true ↔ i = 0)) ∧
    (build_chunk_records texts embs docId fn ts).countP
      (fun r => r.metadata.is_first_chunk) = 1 := by
  have hlen' : (build_chunk_records texts embs docId fn ts).length = texts.length := by
    rw [build_chunk_records]
    simp [List.length_zip, hlen]
  refine ⟨hlen', ?_, ?_⟩
  · intro i r hr
    have hi : i < (build_chunk_records texts embs docId fn ts).length :=
      List.getElem?_eq_some.mp hr |>.1
    have hr' : (build_chunk_records texts embs docId fn ts)[i] = r :=
      List.getElem?_eq_some.mp hr |>.2
    rw [← hr']
    simp [build_chunk_records, List.getElem_map, List.getElem_enum,
      List.getElem_zip]
  · apply countP_eq_one_of_first
    · intro h
      rw [h] at hlen'
      simp only [List.length_nil] at hlen'
      exact hne (List.length_eq_zero.mp hlen'.symm)
    · intro i hi
      rw [List.get_eq_getElem]
      simp only [build_chunk_records, List.getElem_map, List.getElem_enum,
        List.getElem_zip]
      simp

/-- Witness for C7 on a concrete two-chunk ingestion. -/
theorem chunk_metadata_invariants_witness :
    (build_chunk_records ["a", "b"] [[1], [2]] "d" "f" "u").length = 2 ∧
    ((⟨"d_chunk_0", [1], ⟨"a", "d", "f", 0, 2, "u", true⟩⟩ : VectorRecord).metadata.document_id = "d" ∧
      (⟨"d_chunk_0", [1], ⟨"a", "d", "f", 0, 2, "u", true⟩⟩ : VectorRecord).metadata.filename = "f" ∧
      (⟨"d_chunk_0", [1], ⟨"a", "d", "f", 0, 2, "u", true⟩⟩ : VectorRecord).metadata.chunk_index = 0 ∧
      (⟨"d_chunk_0", [1], ⟨"a", "d", "f", 0, 2, "u", true⟩⟩ : VectorRecord).metadata.total_chunks = 2 ∧
      (⟨"d_chunk_0", [1], ⟨"a", "d", "f", 0, 2, "u", true⟩⟩ : VectorRecord).metadata.uploaded_at = "u" ∧
      ((⟨"d_chunk_0", [1], ⟨"a", "d", "f", 0, 2, "u", true⟩⟩ : VectorRecord).metadata.is_first_chunk = true ↔ 0 = 0)) ∧
    (build_chunk_records ["a", "b"] [[1], [2]] "d" "f" "u").countP
      (fun r => r.metadata.is_first_chunk) = 1 :=
  ⟨(chunk_metadata_invariants ["a", "b"] [[1], [2]] "d" "f" "u"
      (by decide) (by decide)).1,
   (chunk_metadata_invariants ["a", "b"] [[1], [2]] "d" "f" "u"
      (by decide) (by decide)).2.1 0
      ⟨"d_chunk_0", [1], ⟨"a", "d", "f", 0, 2, "u", true⟩⟩ (by decide),
   (chunk_metadata_invariants ["a", "b"] [[1], [2]] "d" "f" "u"
      (by decide) (by decide)).2.2⟩

/-! ## PDF block ordering (`_extract_pdf_text_best_fidelity`, lines 183-216)

Blocks are `(x0, y0, x1, y1, text, …)` tuples; the code sorts the cleaned
blocks by `(round(b[1] / y_tol), b[0])` with `y_tol = 3.0`.  Coordinates are
modelled as rationals and Python's `round` (half-to-even) is modelled
exactly; `list.sort` is a stable sort, modelled as stable insertion. -/

/-- A PDF text block: left x, top y, text. -/
structure PdfBlock where
  x : ℚ
  y : ℚ
  text : String
deriving DecidableEq

/-- Python `round` on a rational: nearest integer, ties to even. -/
def pyRound (q : ℚ) : ℤ :=
  if 2 * (q - ⌊q⌋) < 1 then ⌊q⌋
  else if 1 < 2 * (q - ⌊q⌋) then ⌊q⌋ + 1
  else if ⌊q⌋ % 2 = 0 then ⌊q⌋ else ⌊q⌋ + 1

/-- The sort key `(round(top_y / y_tol), left_x)`. -/
def blockKey (yTol : ℚ) (b : PdfBlock) : ℤ × ℚ :=
  (pyRound (b.y / yTol), b.x)

/-- Strict lexicographic comparison of sort keys (Python tuple `<`). -/
def keyLt (yTol : ℚ) (a b : PdfBlock) : Prop :=
  (blockKey yTol a).1 < (blockKey yTol b).1 ∨
  ((blockKey yTol a).1 = (blockKey yTol b).1 ∧
    (blockKey yTol a).2 < (blockKey yTol b).2)

/-- Non-strict lexicographic comparison of sort keys. -/
def keyLe (yTol : ℚ) (a b : PdfBlock) : Prop :=
  (blockKey yTol a).1 < (blockKey yTol b).1 ∨
  ((blockKey yTol a).1 = (blockKey yTol b).1 ∧
    (blockKey yTol a).2 ≤ (blockKey yTol b).2)

instance (yTol : ℚ) (a b : PdfBlock) : Decidable (keyLt yTol a b) := by
  unfold keyLt; infer_instance

/-- Stable insertion: `b` goes after every strictly smaller element and
before the first element that is not strictly smaller (so ties keep the
original, earlier-first order — exactly Python's stable sort). -/
def insertByKey (yTol : ℚ) (b : PdfBlock) : List PdfBlock → List PdfBlock
  | [] => [b]
  | a :: rest =>
    if keyLt yTol a b then a :: insertByKey yTol b rest else b :: a :: rest

/-- Stable insertion sort by the block key — the ordering produced by
`clean_blocks.sort(key=...)`. -/
def sortBlocks (yTol : ℚ) : List PdfBlock → List PdfBlock
  | [] => []
  | a :: rest => insertByKey yTol a (sortBlocks yTol rest)

theorem keyLt_keyLe {t : ℚ} {a b : PdfBlock} (h : keyLt t a b) : keyLe t a b := by
  rw [keyLt] at h; rw [keyLe]
  rcases h with h | ⟨h1, h2⟩
  · exact Or.inl h
  · exact Or.inr ⟨h1, le_of_lt h2⟩

theorem keyLe_of_not_lt {t : ℚ} {a b : PdfBlock} (h : ¬ keyLt t a b) :
    keyLe t b a := by
  rw [keyLt] at h; rw [keyLe]
  push_neg at h
  rcases lt_trichotomy (blockKey t b).1 (blockKey t a).1 with h1 | h1 | h1
  · exact Or.inl h1
  · exact Or.inr ⟨h1, h.2 h1.symm⟩
  · exact absurd h1 (not_lt.mpr h.1)

theorem keyLe_trans {t : ℚ} {a b c : PdfBlock} (h1 : keyLe t a b)
    (h2 : keyLe t b c) : keyLe t a c := by
  rw [keyLe] at h1 h2 ⊢
  rcases h1 with h1 | ⟨h1a, h1b⟩ <;> rcases h2 with h2 | ⟨h2a, h2b⟩
  · exact Or.inl (lt_trans h1 h2)
  · exact Or.inl (lt_of_lt_of_le h1 (le_of_eq h2a))
  · exact Or.inl (lt_of_le_of_lt (le_of_eq h1a) h2)
  · exact Or.inr ⟨h1a.trans h2a, le_trans h1b h2b⟩

theorem mem_insertByKey {t : ℚ} {b : PdfBlock} :
    ∀ {l : List PdfBlock} {x : PdfBlock},
      x ∈ insertByKey t b l ↔ x = b ∨ x ∈ l := by
  intro l
  induction l with
  | nil => intro x; simp [insertByKey]
  | cons a rest ih =>
    intro x
    rw [insertByKey]
    by_cases h : keyLt t a b
    · rw [if_pos h]
      simp only [List.mem_cons, ih]
      tauto
    · rw [if_neg h]
      simp only [List.mem_cons]

theorem insertByKey_perm (t : ℚ) (b : PdfBlock) :
    ∀ l : List PdfBlock, (insertByKey t b l).Perm (b :: l) := by
  intro l
  induction l with
  | nil => exact List.Perm.refl _
  | cons a rest ih =>
    rw [insertByKey]
    by_cases h : keyLt t a b
    · rw [if_pos h]
      exact (ih.cons a).trans (List.Perm.swap b a rest)
    · rw [if_neg h]

theorem sortBlocks_perm (t : ℚ) :
    ∀ l : List PdfBlock, (sortBlocks t l).Perm l := by
  intro l
  induction l with
  | nil => exact List.Perm.refl _
  | cons a rest ih =>
    rw [sortBlocks]
    exact (insertByKey_perm t a (sortBlocks t rest)).trans (ih.cons a)

theorem pairwise_insertByKey (t : ℚ) (b : PdfBlock) :
    ∀ l : List PdfBlock, l.Pairwise (keyLe t) →
      (insertByKey t b l).Pairwise (keyLe t) := by
  intro l
  induction l with
  | nil => intro _; simp [insertByKey, List.pairwise_singleton]
  | cons a rest ih =>
    intro hp
    rw [List.pairwise_cons] at hp
    obtain ⟨ha, hrest⟩ := hp
    rw [insertByKey]
    by_cases h : keyLt t a b
    · rw [if_pos h]
      rw [List.pairwise_cons]
      refine ⟨?_, ih hrest⟩
      intro x hx
      rcases mem_insertByKey.mp hx with hx | hx
      · subst hx; exact keyLt_keyLe h
      · exact ha x hx
    · rw [if_neg h]
      rw [List.pairwise_cons]
      refine ⟨?_, List.pairwise_cons.mpr ⟨ha, hrest⟩⟩
      intro x hx
      rcases List.mem_cons.mp hx with hx | hx
      · subst hx; exact keyLe_of_not_lt h
      · exact keyLe_trans (keyLe_of_not_lt h) (ha x hx)

theorem sortBlocks_sorted (t : ℚ) :
    ∀ l : List PdfBlock, (sortBlocks t l).Pairwise (keyLe t) := by
  intro l
  induction l with
  | nil => simp [sortBlocks]
  | cons a rest ih =>
    rw [sortBlocks]
    exact pairwise_insertByKey t a _ ih

theorem pyRound_ten_thirds : pyRound (10 / 3 : ℚ) = 3 := by
  have hf : ⌊(10 / 3 : ℚ)⌋ = 3 :=
    Int.floor_eq_iff.mpr ⟨by norm_num, by norm_num⟩
  rw [pyRound, hf]
  rw [if_pos (by push_cast; norm_num)]

theorem pyRound_eleven_thirds : pyRound (11 / 3 : ℚ) = 4 := by
  have hf : ⌊(11 / 3 : ℚ)⌋ = 3 :=
    Int.floor_eq_iff.mpr ⟨by norm_num, by norm_num⟩
  rw [pyRound, hf]
  rw [if_neg (by push_cast; norm_num), if_pos (by push_cast; norm_num)]
  decide

theorem pyRound_fifty_thirds : pyRound (50 / 3 : ℚ) = 17 := by
  have hf : ⌊(50 / 3 : ℚ)⌋ = 16 :=
    Int.floor_eq_iff.mpr ⟨by norm_num, by norm_num⟩
  rw [pyRound, hf]
  rw [if_neg (by push_cast; norm_num), if_pos (by push_cast; norm_num)]
  decide

theorem blockKey_B : blockKey 3 ⟨50, 10, "B"⟩ = (3, 50) := by
  show (pyRound ((10 : ℚ) / 3), (50 : ℚ)) = (3, 50)
  rw [pyRound_ten_thirds]

theorem blockKey_A : blockKey 3 ⟨10, 11, "A"⟩ = (4, 10) := by
  show (pyRound ((11 : ℚ) / 3), (10 : ℚ)) = (4, 10)
  rw [pyRound_eleven_thirds]

theorem blockKey_C : blockKey 3 ⟨10, 50, "C"⟩ = (17, 10) := by
  show (pyRound ((50 : ℚ) / 3), (10 : ℚ)) = (17, 10)
  rw [pyRound_fifty_thirds]

/-- Evaluating the sort on the spec's example: `y = 10` and `y = 11` round
to different buckets (`3` and `4`), so "B" precedes "A". -/
theorem sortBlocks_example_eval :
    sortBlocks 3 [⟨50, 10, "B"⟩, ⟨10, 11, "A"⟩, ⟨10, 50, "C"⟩] =
      [⟨50, 10, "B"⟩, ⟨10, 11, "A"⟩, ⟨10, 50, "C"⟩] := by
  have hCA : ¬ keyLt 3 ⟨10, 50, "C"⟩ ⟨10, 11, "A"⟩ := by
    rw [keyLt, blockKey_C, blockKey_A]
    push_neg
    constructor
    · decide
    · intro h; exact absurd h (by decide)
  have hAB : ¬ keyLt 3 ⟨10, 11, "A"⟩ ⟨50, 10, "B"⟩ := by
    rw [keyLt, blockKey_A, blockKey_B]
    push_neg
    constructor
    · decide
    · intro h; exact absurd h (by decide)
  simp only [sortBlocks, insertByKey]
  rw [if_neg hCA]
  rw [insertByKey, if_neg hAB]

/-- C8 counterexample: the sort on the spec's example blocks yields the
order `B, A, C`, not the claimed `A, B, C`. -/
theorem pdf_sort_cex :
    (sortBlocks 3 [⟨50, 10, "B"⟩, ⟨10, 11, "A"⟩, ⟨10, 50, "C"⟩]).map
        PdfBlock.text = ["B", "A", "C"] ∧
    (["B", "A", "C"] : List String) ≠ ["A", "B", "C"] := by
  rw [sortBlocks_example_eval]
  exact ⟨rfl, by decide⟩

/-- C8 (amended): blocks are ordered by the key
`(round(top_y / y_tolerance), left_x)` with `y_tolerance = 3.0` and Python
half-to-even rounding — the sorted output is a permutation of the input,
pairwise ordered by the key; on the example blocks the resulting order is
`B, A, C` (y = 10 and y = 11 fall into different rounding buckets, so "B"
precedes "A"; the left-to-right tie-break never fires). -/
theorem pdf_sort_ordered :
    (∀ l : List PdfBlock,
      (sortBlocks 3 l).Perm l ∧ (sortBlocks 3 l).Pairwise (keyLe 3)) ∧
    (sortBlocks 3 [⟨50, 10, "B"⟩, ⟨10, 11, "A"⟩, ⟨10, 50, "C"⟩]).map
        PdfBlock.text = ["B", "A", "C"] := by
  refine ⟨fun l => ⟨sortBlocks_perm 3 l, sortBlocks_sorted 3 l⟩, ?_⟩
  rw [sortBlocks_example_eval]
  decide

/-! ## PPTX extraction (`_extract_pptx_text`, lines 238-273)

Python strings are modelled here as character lists (`List Char`), so that
`str.strip` / `str.join` behave transparently.  A shape carries an optional
text frame and an optional table (rows of cell texts); a slide carries its
shapes in order and optional speaker notes. -/

/-- Python `"sep".join(parts)` on character lists. -/
def joinWith (sep : List Char) : List (List Char) → List Char
  | [] => []
  | [x] => x
  | x :: y :: rest => x ++ sep ++ joinWith sep (y :: rest)

/-- A PPTX shape: optional text frame text, optional table cell texts. -/
structure PptxShape where
  text_frame : Option (List Char)
  table : Option (List (List (List Char)))

/-- A PPTX slide: shapes in document order, optional speaker notes text. -/
structure PptxSlide where
  shapes : List PptxShape
  notes : Option (List Char)

/-- The slide-boundary marker `--- Slide {si} ---`. -/
def markerChars (si : Nat) : List Char :=
  "--- Slide ".toList ++ (toString si).toList ++ " ---".toList

/-- Table rows rendered as in the source: cells stripped, tab-joined,
right-stripped; rows that are empty after stripping are skipped. -/
def tableLines (rows : List (List (List Char))) : List (List Char) :=
  rows.filterMap (fun row =>
    let line := pyRStripChars (joinWith ['\t'] (row.map pyStripChars))
    if pyStripChars line ≠ [] then some line else none)

/-- The parts contributed by one shape, in source order: its text-frame
content (stripped, if nonempty), then its table rows. -/
def shapeParts (s : PptxShape) : List (List Char) :=
  (match s.text_frame with
   | some t => if pyStripChars t ≠ [] then [pyStripChars t] else []
   | none => []) ++
  (match s.table with
   | some rows => tableLines rows
   | none => [])

/-- The speaker-notes part: `[Notes]\n` followed by the stripped notes text,
when that is nonempty. -/
def notesParts (sl : PptxSlide) : List (List Char) :=
  match sl.notes with
  | some nt =>
    if pyStripChars nt ≠ [] then ["[Notes]\n".toList ++ pyStripChars nt] else []
  | none => []

/-- The `parts` list accumulated for one slide: marker, per-shape parts in
shape order, then notes. -/
def slideParts (si : Nat) (sl : PptxSlide) : List (List Char) :=
  markerChars si :: ((sl.shapes.map shapeParts).flatten ++ notesParts sl)

/-- One slide's entry of `slides_out`: `"\n".join(parts).strip()`. -/
def slideBlock (si : Nat) (sl : PptxSlide) : List Char :=
  pyStripChars (joinWith ['\n'] (slideParts si sl))

/-- Shallow embedding of `_extract_pptx_text`:
`"\n\n".join(s for s in slides_out if s).strip()` with 1-based slide
numbers. -/
def extract_pptx_text (slides : List PptxSlide) : List Char :=
  pyStripChars (joinWith ['\n', '\n']
    ((slides.enum.map (fun p => slideBlock (p.1 + 1) p.2)).filter
      (fun s => s ≠ [])))

/-- The renderer the amended claim describes: the same per-slide parts, but
with no final strip and no slide omitted (blocks joined by blank lines). -/
def slideBlockSpec (si : Nat) (sl : PptxSlide) : List Char :=
  joinWith ['\n'] (slideParts si sl)

/-- The amended-claim rendering of a whole deck. -/
def extractPptxSpec (slides : List PptxSlide) : List Char :=
  joinWith ['\n', '\n']
    (slides.enum.map (fun p => slideBlockSpec (p.1 + 1) p.2))

/-- A part that is nonempty and ends in a non-whitespace character. -/
def goodPart (p : List Char) : Prop :=
  p ≠ [] ∧ ∃ d, p.getLast? = some d ∧ isPySpace d = false

theorem dropWhile_eq_self_of_head {p : Char → Bool} {l : List Char} {c : Char}
    (hh : l.head? = some c) (hc : p c = false) : l.dropWhile p = l := by
  cases l with
  | nil => simp at hh
  | cons a t =>
    rw [List.head?_cons, Option.some_inj] at hh
    subst hh
    rw [List.dropWhile_cons, hc]
    simp

theorem head?_dropWhile_false {p : Char → Bool} :
    ∀ (l : List Char) (c : Char), (l.dropWhile p).head? = some c → p c = false := by
  intro l
  induction l with
  | nil => intro c h; simp at h
  | cons a t ih =>
    intro c h
    rw [List.dropWhile_cons] at h
    by_cases hp : p a = true
    · rw [if_pos hp] at h
      exact ih c h
    · rw [if_neg hp] at h
      rw [List.head?_cons, Option.some_inj] at h
      subst h
      exact Bool.not_eq_true _ ▸ hp

theorem ne_nil_of_getLast?_eq_some {l : List Char} {d : Char}
    (h : l.getLast? = some d) : l ≠ [] := by
  intro hl
  rw [hl, List.getLast?_nil] at h
  cases h

/-- A string already free of leading and trailing whitespace is unchanged by
`strip()`. -/
theorem pyStripChars_eq_self {l : List Char} {c d : Char}
    (hh : l.head? = some c) (hc : isPySpace c = false)
    (hl : l.getLast? = some d) (hd : isPySpace d = false) :
    pyStripChars l = l := by
  rw [pyStripChars]
  rw [dropWhile_eq_self_of_head hh hc]
  rw [dropWhile_eq_self_of_head (by rw [List.head?_reverse]; exact hl) hd]
  exact List.reverse_reverse l

theorem joinWith_head? (sep : List Char) (x : List Char)
    (xs : List (List Char)) (hx : x ≠ []) :
    (joinWith sep (x :: xs)).head? = x.head? := by
  cases xs with
  | nil => rfl
  | cons y ys =>
    rw [joinWith, List.append_assoc]
    exact List.head?_append_of_ne_nil _ hx

theorem joinWith_ne_nil (sep : List Char) (x : List Char)
    (xs : List (List Char)) (hx : x ≠ []) :
    joinWith sep (x :: xs) ≠ [] := by
  intro h
  have hh := joinWith_head? sep x xs hx
  rw [h] at hh
  cases x with
  | nil => exact hx rfl
  | cons a t => simp at hh

theorem joinWith_getLast?_bind (sep : List Char) :
    ∀ (parts : List (List Char)), (∀ p ∈ parts, p ≠ []) → parts ≠ [] →
      (joinWith sep parts).getLast? = parts.getLast?.bind List.getLast? := by
  intro parts
  induction parts with
  | nil => intro _ h; exact absurd rfl h
  | cons x xs ih =>
    intro hall _
    cases xs with
    | nil => simp [joinWith]
    | cons y ys =>
      have hyall : ∀ p ∈ y :: ys, p ≠ [] :=
        fun p hp => hall p (List.mem_cons_of_mem _ hp)
      have hIH := ih hyall (by simp)
      have hLne : (y :: ys).getLast (by simp) ≠ [] :=
        hyall _ (List.getLast_mem (by simp))
      have hL : (y :: ys).getLast? = some ((y :: ys).getLast (by simp)) :=
        List.getLast?_eq_getLast _ _
      obtain ⟨d, hd⟩ : ∃ d, ((y :: ys).getLast (by simp)).getLast? = some d := by
        cases hLL : ((y :: ys).getLast (by simp)).getLast? with
        | none => exact absurd (List.getLast?_eq_none_iff.mp hLL) hLne
        | some d => exact ⟨d, rfl⟩
      rw [joinWith, List.getLast?_append, hIH, hL]
      rw [List.getLast?_cons_cons, hL]
      simp [Option.bind, hd, Option.or_some]

theorem pyStripChars_goodPart {l : List Char} (h : pyStripChars l ≠ []) :
    goodPart (pyStripChars l) := by
  refine ⟨h, ?_⟩
  rw [pyStripChars] at h ⊢
  cases hd : ((l.dropWhile isPySpace).reverse.dropWhile isPySpace).head? with
  | none =>
    rw [List.head?_eq_none_iff] at hd
    rw [hd] at h
    exact absurd rfl h
  | some d =>
    refine ⟨d, ?_, head?_dropWhile_false _ d hd⟩
    rw [List.getLast?_reverse]
    exact hd

theorem pyRStripChars_goodPart {l : List Char} (h : pyRStripChars l ≠ []) :
    goodPart (pyRStripChars l) := by
  refine ⟨h, ?_⟩
  rw [pyRStripChars] at h ⊢
  cases hd : (l.reverse.dropWhile isPySpace).head? with
  | none =>
    rw [List.head?_eq_none_iff] at hd
    rw [hd] at h
    exact absurd rfl h
  | some d =>
    refine ⟨d, ?_, head?_dropWhile_false _ d hd⟩
    rw [List.getLast?_reverse]
    exact hd

theorem goodPart_append_right {A B : List Char} (h : goodPart B) :
    goodPart (A ++ B) := by
  obtain ⟨hne, d, hd, hsp⟩ := h
  refine ⟨?_, d, ?_, hsp⟩
  · intro hAB
    exact hne (List.append_eq_nil.mp hAB).2
  · rw [List.getLast?_append, hd]
    exact Option.or_some

theorem markerChars_head? (si : Nat) : (markerChars si).head? = some '-' := by
  rw [markerChars, List.append_assoc]
  rw [List.head?_append_of_ne_nil _ (by decide)]
  decide

theorem markerChars_goodPart (si : Nat) : goodPart (markerChars si) := by
  refine ⟨?_, '-', ?_, by decide⟩
  · intro h
    obtain ⟨h1, -⟩ := List.append_eq_nil.mp h
    obtain ⟨h2, -⟩ := List.append_eq_nil.mp h1
    exact (by decide : ("--- Slide ".toList : List Char) ≠ []) h2
  · rw [markerChars, List.getLast?_append]
    rw [show (" ---".toList : List Char).getLast? = some '-' from by decide]
    exact Option.or_some

/-- Every part accumulated for a slide is nonempty and ends in a
non-whitespace character (text frames and notes are stripped, table lines
are right-stripped, the marker ends in a dash). -/
theorem slideParts_good (si : Nat) (sl : PptxSlide) :
    ∀ p ∈ slideParts si sl, goodPart p := by
  intro p hp
  rw [slideParts] at hp
  rcases List.mem_cons.mp hp with hp | hp
  · subst hp; exact markerChars_goodPart si
  rcases List.mem_append.mp hp with hp | hp
  · obtain ⟨l, hl, hpl⟩ := List.mem_flatten.mp hp
    obtain ⟨s, _, hsl⟩ := List.mem_map.mp hl
    rw [← hsl] at hpl
    obtain ⟨tf, tb⟩ := s
    rw [shapeParts] at hpl
    rcases List.mem_append.mp hpl with hq | hq
    · rcases tf with _ | t
      · simp at hq
      · simp only at hq
        by_cases hts : pyStripChars t ≠ []
        · rw [if_pos hts, List.mem_singleton] at hq
          subst hq
          exact pyStripChars_goodPart hts
        · rw [if_neg hts] at hq
          simp at hq
    · rcases tb with _ | rows
      · simp at hq
      · simp only [tableLines, List.mem_filterMap] at hq
        obtain ⟨row, _, hfr⟩ := hq
        by_cases hc :
            pyStripChars (pyRStripChars (joinWith ['\t'] (row.map pyStripChars))) ≠ []
        · rw [if_pos hc, Option.some_inj] at hfr
          subst hfr
          apply pyRStripChars_goodPart
          intro h0
          rw [h0] at hc
          exact hc rfl
        · rw [if_neg hc] at hfr
          cases hfr
  · obtain ⟨shapes, notes⟩ := sl
    rcases notes with _ | nt
    · simp [notesParts] at hp
    · simp only [notesParts] at hp
      by_cases hns : pyStripChars nt ≠ []
      · rw [if_pos hns, List.mem_singleton] at hp
        subst hp
        exact goodPart_append_right (pyStripChars_goodPart hns)
      · rw [if_neg hns] at hp
        simp at hp

/-- A block: starts with the marker's dash, ends in a non-whitespace
character. -/
def goodBlock (p : List Char) : Prop :=
  p.head? = some '-' ∧ ∃ d, p.getLast? = some d ∧ isPySpace d = false

theorem goodBlock_ne_nil {p : List Char} (h : goodBlock p) : p ≠ [] := by
  intro h0
  rw [h0, goodBlock] at h
  obtain ⟨h1, -⟩ := h
  simp at h1

/-- The `.strip()` at the end of a block (or deck) join is a no-op: the text
starts with a marker dash and ends in a non-whitespace character. -/
theorem pyStripChars_joinWith_blocks (sep : List Char) :
    ∀ blocks : List (List Char), (∀ b ∈ blocks, goodBlock b) →
      pyStripChars (joinWith sep blocks) = joinWith sep blocks := by
  intro blocks hb
  cases blocks with
  | nil => rfl
  | cons b bs =>
    have hbne : ∀ p ∈ b :: bs, p ≠ [] := fun p hp => goodBlock_ne_nil (hb p hp)
    have hh := joinWith_head? sep b bs (hbne b (List.mem_cons_self _ _))
    rw [(hb b (List.mem_cons_self _ _)).1] at hh
    have hlast := joinWith_getLast?_bind sep (b :: bs) hbne (by simp)
    have hLne : (b :: bs) ≠ [] := by simp
    have hLmem := List.getLast_mem hLne
    obtain ⟨-, d, hPd, hPsp⟩ := hb _ hLmem
    have hL? := List.getLast?_eq_getLast _ hLne
    refine pyStripChars_eq_self hh (by decide) ?_ hPsp
    rw [hlast, hL?]
    simpa using hPd

theorem slideBlockSpec_goodBlock (si : Nat) (sl : PptxSlide) :
    goodBlock (slideBlockSpec si sl) := by
  rw [slideBlockSpec]
  have hgood := slideParts_good si sl
  have hne : ∀ p ∈ slideParts si sl, p ≠ [] := fun p hp => (hgood p hp).1
  have hPne : slideParts si sl ≠ [] := by rw [slideParts]; simp
  constructor
  · rw [slideParts]
    rw [joinWith_head? _ _ _ (markerChars_goodPart si).1]
    exact markerChars_head? si
  · have hlast := joinWith_getLast?_bind ['\n'] (slideParts si sl) hne hPne
    have hLmem := List.getLast_mem hPne
    obtain ⟨-, d, hPd, hPsp⟩ := hgood _ hLmem
    have hL? := List.getLast?_eq_getLast _ hPne
    refine ⟨d, ?_, hPsp⟩
    rw [hlast, hL?]
    simpa using hPd

/-- The per-slide `.strip()` is a no-op: the code's block equals the
unstripped render. -/
theorem slideBlock_eq_spec (si : Nat) (sl : PptxSlide) :
    slideBlock si sl = slideBlockSpec si sl := by
  rw [slideBlock]
  have h := slideBlockSpec_goodBlock si sl
  rw [slideBlockSpec] at h
  obtain ⟨hh, d, hd, hsp⟩ := h
  exact pyStripChars_eq_self hh (by decide) hd hsp

theorem slideBlock_goodBlock (si : Nat) (sl : PptxSlide) :
    goodBlock (slideBlock si sl) := by
  rw [slideBlock_eq_spec]
  exact slideBlockSpec_goodBlock si sl

/-- C9 (amended): the extractor renders, per slide in order and joined by
blank lines, a block consisting of the slide marker, then for each shape in
shape order that shape's text-frame content followed by its table rows, then
the speaker notes under the `[Notes]` marker; every slide contributes its
block — a slide producing no text still contributes its marker and is not
omitted.  (The original claim's "all text frames before all tables" and
"empty slides are omitted" both fail, see the counterexample.) -/
theorem pptx_extract_structure :
    (∀ slides : List PptxSlide,
      extract_pptx_text slides = extractPptxSpec slides) ∧
    (∀ (si : Nat) (sl : PptxSlide),
      slideBlock si sl =
        markerChars si ++
          (if ((sl.shapes.map shapeParts).flatten ++ notesParts sl) = [] then []
           else '\n' :: joinWith ['\n']
             ((sl.shapes.map shapeParts).flatten ++ notesParts sl))) := by
  constructor
  · intro slides
    rw [extract_pptx_text, extractPptxSpec]
    have hfilter :
        ((slides.enum.map (fun p => slideBlock (p.1 + 1) p.2)).filter
          (fun s => s ≠ [])) =
        slides.enum.map (fun p => slideBlock (p.1 + 1) p.2) := by
      rw [List.filter_eq_self]
      intro b hb
      obtain ⟨p, _, hbp⟩ := List.mem_map.mp hb
      rw [← hbp]
      simpa using goodBlock_ne_nil (slideBlock_goodBlock (p.1 + 1) p.2)
    rw [hfilter]
    have hmap : slides.enum.map (fun p => slideBlock (p.1 + 1) p.2) =
        slides.enum.map (fun p => slideBlockSpec (p.1 + 1) p.2) :=
      List.map_congr_left (fun p _ => slideBlock_eq_spec _ _)
    rw [hmap]
    apply pyStripChars_joinWith_blocks
    intro b hb
    obtain ⟨p, _, hbp⟩ := List.mem_map.mp hb
    rw [← hbp]
    exact slideBlockSpec_goodBlock _ _
  · intro si sl
    rw [slideBlock_eq_spec, slideBlockSpec, slideParts]
    cases hrest : (sl.shapes.map shapeParts).flatten ++ notesParts sl with
    | nil =>
      rw [if_pos rfl]
      simp [joinWith]
    | cons r rs =>
      rw [if_neg (by simp)]
      rw [joinWith]
      simp [List.append_assoc]

/-- C9 counterexample: a slide whose table-bearing shape precedes its
text-frame shape emits the table line before the text, and a slide with no
content still contributes its `--- Slide 2 ---` marker — it is not omitted
from the joined output. -/
theorem pptx_extract_cex :
    extract_pptx_text
        [⟨[⟨none, some [[['a'], ['b']]]⟩, ⟨some ['X'], none⟩], none⟩,
         ⟨[], none⟩] =
      ("--- Slide 1 ---\na\tb\nX\n\n--- Slide 2 ---").toList ∧
    ("--- Slide 1 ---\na\tb\nX\n\n--- Slide 2 ---").toList ≠
      ("--- Slide 1 ---\nX\na\tb").toList := by
  refine ⟨by decide, by decide⟩

end MBACopilot
